import Mathlib

/-!
Verification of the seatrades assignment engine (`seatrades/seatrades.py`).

Python strings are modelled as lists of characters (`Str`), so that the
source's slicing (`s[3:]`), concatenation (f-strings), membership tests
(`x in y`, which on Python strings is substring containment and on lists is
membership) and `str.split` translate to `List.drop`, `++`, `List.IsInfix`
/ list membership and `takeWhile`/`dropWhile` respectively.

The LP model built by `Seatrades.assign` is embedded as predicates over a
candidate solution `A : Str → Str → Bool` giving, per camper and per
Seatrade-Instance name (e.g. `"1a_Sailing"`), the value of the binary
variable `camper_assignments[c][s]`.  `pulp.lpSum` of binary variables is
embedded as `boolIntSum`.  An "accepted solution" is one that satisfies the
constraints the source adds to the problem.
-/

namespace SeatradesPy

/-- Python strings modelled as character lists. -/
abbrev Str := List Char

/-- Fleet label `"1a"` from `self.fleets`. -/
def fleet1a : Str := ['1', 'a']

/-- Fleet label `"1b"` from `self.fleets`. -/
def fleet1b : Str := ['1', 'b']

/-- Fleet label `"2a"` from `self.fleets`. -/
def fleet2a : Str := ['2', 'a']

/-- Fleet label `"2b"` from `self.fleets`. -/
def fleet2b : Str := ['2', 'b']

/-- `self.fleets = ["1a", "1b", "2a", "2b"]`. -/
def fleets : List Str := [fleet1a, fleet1b, fleet2a, fleet2b]

/-- The f-string `f"{fleet}_{seatrade}"` used to name a Seatrade Instance. -/
def mkInst (fleet seatrade : Str) : Str := fleet ++ '_' :: seatrade

/-- The slice `s[3:]` stripping the three-character fleet prefix. -/
def stripInst (s : Str) : Str := s.drop 3

/-- Inputs the `Seatrades` object derives from its two dataframes:
`self.campers`, `self.seatrades`, `self.camper_prefs` (the per-camper list
of `seatrade_1 .. seatrade_4`), the `campers_min`/`campers_max` columns of
`self.seatrades_prefs`, and the camper-indexed cabin series
`self.cabin_camper_prefs["cabin"]` (in row order). -/
structure SeatradesInput where
  campers : List Str
  seatrades : List Str
  camper_prefs : Str → List Str
  campers_min : Str → Int
  campers_max : Str → Int
  cabinOf : List (Str × Str)

/-- `self.seatrades1a = [f"1a_{seatrade}" for seatrade in self.seatrades]`. -/
def seatrades1a (inp : SeatradesInput) : List Str := inp.seatrades.map (mkInst fleet1a)

/-- `self.seatrades1b`. -/
def seatrades1b (inp : SeatradesInput) : List Str := inp.seatrades.map (mkInst fleet1b)

/-- `self.seatrades2a`. -/
def seatrades2a (inp : SeatradesInput) : List Str := inp.seatrades.map (mkInst fleet2a)

/-- `self.seatrades2b`. -/
def seatrades2b (inp : SeatradesInput) : List Str := inp.seatrades.map (mkInst fleet2b)

/-- `self.seatrades_full = seatrades1a + seatrades1b + seatrades2a + seatrades2b`. -/
def seatradesFull (inp : SeatradesInput) : List Str :=
  seatrades1a inp ++ seatrades1b inp ++ seatrades2a inp ++ seatrades2b inp

/-- The Block-1 instance list `self.seatrades1a + self.seatrades1b`
iterated by Constraint 1. -/
def block1Insts (inp : SeatradesInput) : List Str := seatrades1a inp ++ seatrades1b inp

/-- The Block-2 instance list `self.seatrades2a + self.seatrades2b`. -/
def block2Insts (inp : SeatradesInput) : List Str := seatrades2a inp ++ seatrades2b inp

/-- `pulp.lpSum` of a family of binary variables: the sum, as an integer,
of their 0/1 values. -/
def boolIntSum {α : Type} (l : List α) (v : α → Bool) : Int :=
  (l.map (fun x => if v x then (1 : Int) else 0)).sum

/-- Constraint 1 of `Seatrades.assign`: for each of the two blocks, each
camper's assignment variables over that block's instances sum to 1. -/
def constraint1 (inp : SeatradesInput) (A : Str → Str → Bool) : Prop :=
  ∀ bs ∈ [block1Insts inp, block2Insts inp], ∀ c ∈ inp.campers,
    boolIntSum bs (A c) = 1

/-- Constraint 2: for each seatrade and camper, the four variables of the
camper for that seatrade's instances in fleets 1a, 1b, 2a, 2b sum to at
most 1. -/
def constraint2 (inp : SeatradesInput) (A : Str → Str → Bool) : Prop :=
  ∀ t ∈ inp.seatrades, ∀ c ∈ inp.campers,
    boolIntSum
      [A c (mkInst fleet1a t), A c (mkInst fleet1b t),
       A c (mkInst fleet2a t), A c (mkInst fleet2b t)] id ≤ 1

/-- Constraint 3: the number of campers assigned to each instance
`s ∈ seatrades_full` lies between `campers_min` and `campers_max` of the
seatrade `s[3:]`. -/
def constraint3 (inp : SeatradesInput) (A : Str → Str → Bool) : Prop :=
  ∀ s ∈ seatradesFull inp,
    inp.campers_min (stripInst s) ≤ boolIntSum inp.campers (fun c => A c s) ∧
    boolIntSum inp.campers (fun c => A c s) ≤ inp.campers_max (stripInst s)

/-- Constraint 4: for each camper, the variables of all instances whose
seatrade (`s[3:]`) is not in the camper's preference list sum to 0. -/
def constraint4 (inp : SeatradesInput) (A : Str → Str → Bool) : Prop :=
  ∀ c ∈ inp.campers,
    boolIntSum
      ((seatradesFull inp).filter
        (fun s => !(decide (stripInst s ∈ inp.camper_prefs c))))
      (A c) = 0

/-- One fleet's summand list in Constraint 5 and Penalty 1: for each
preference `s`, the camper's assignment indicator for `f"{fleet}_{s}"`
times the 0-based rank `preferences.index(s)`. -/
def prefTerms (prefs : List Str) (v : Str → Bool) (fleet : Str) : List Int :=
  prefs.map (fun s => (if v (mkInst fleet s) then (1 : Int) else 0) * (prefs.indexOf s : Int))

/-- Constraint 5: for each camper, the sum of the four per-fleet rank-index
terms is at most `5 - 1` (the source's literal; the comment reads
"indexing of 0 means 3rd + 4th preference index is 2+3=5"). -/
def constraint5 (inp : SeatradesInput) (A : Str → Str → Bool) : Prop :=
  ∀ c ∈ inp.campers,
    (prefTerms (inp.camper_prefs c) (A c) fleet1a ++
     prefTerms (inp.camper_prefs c) (A c) fleet1b ++
     prefTerms (inp.camper_prefs c) (A c) fleet2a ++
     prefTerms (inp.camper_prefs c) (A c) fleet2b).sum ≤ 5 - 1

/-- (Optional) Constraint 10's gate and per-fleet constraints, as data:
`if max_seatrades_per_fleet:` is Python truthiness, so `None` and `0` both
skip the loop; otherwise one constraint `(fleet, cap)` is added per fleet,
standing for `lpSum(seatrade_assignment[fleet][t] for t) <= cap`. -/
def capConstraints (max_seatrades_per_fleet : Option Int) : List (Str × Int) :=
  match max_seatrades_per_fleet with
  | none => []
  | some k => if k = 0 then [] else fleets.map (fun f => (f, k))

/-- The wide assignment table `pd.DataFrame(camper_assignments)`, as
(camper, instance, value) triples. -/
abbrev AssignTable := List (Str × Str × Int)

/-- The mutable attributes of a `Seatrades` object that `assign` updates:
`self.status` and `self.assignments`. -/
structure SeatradesState where
  status : Int
  assignments : Option AssignTable
deriving DecidableEq

/-- `Seatrades.__init__`: `self.status = 0`; `self.assignments` is only
declared (a bare annotation), not populated. -/
def initState : SeatradesState := { status := 0, assignments := none }

/-- The remap `self.status = status if status else -1` (Python truthiness:
an `int` is falsy exactly when it is 0). -/
def updateStatus (solverStatus : Int) : Int :=
  if solverStatus ≠ 0 then solverStatus else -1

/-- The tail of `Seatrades.assign` after `problem.solve(...)` returns
`status`: remap the status, then unconditionally store the variable values
into `self.assignments`. -/
def assignEpilogue (st : SeatradesState) (solverStatus : Int)
    (tbl : AssignTable) : SeatradesState :=
  { st with status := updateStatus solverStatus, assignments := some tbl }

/-- The row function `lookup_preference` of
`wrangle_assignments_to_longform`: for an assigned row whose seatrade
(after stripping the fleet prefix `row.seatrade[3:]`) occurs in the
camper's preference list, the 1-based rank `index(...) + 1`; for an
assigned row with an unknown seatrade, the sentinel 999; for an unassigned
row, 0. -/
def lookup_preference (row_camper_prefs : List Str) (seatrade : Str)
    (assignment : Bool) : Int :=
  if assignment then
    if stripInst seatrade ∈ row_camper_prefs then
      (row_camper_prefs.indexOf (stripInst seatrade) : Int) + 1
    else 999
  else 0

/-- The row function `lookup_cabin`: iterate the camper-indexed cabin
series; Python's `camper in campers` tests whether `camper` is a
substring of the (single) index label `campers`, so the first entry whose
label contains the row's camper is returned. -/
def lookup_cabin (cabinSeries : List (Str × Str)) (camper : Str) : Option Str :=
  match cabinSeries with
  | [] => none
  | (campers, cabin) :: rest =>
      if camper <:+: campers then some cabin else lookup_cabin rest camper

/-- One row of the long-form table: columns `camper`, `seatrade`,
`assignment`, `preference`, `cabin` and `block` (the last produced by
`df["seatrade"].str.split("_", expand=True)`, whose first part — the fleet
label — is stored in the column named `block`). -/
structure LongRecord where
  camper : Str
  seatrade : Str
  assignment : Bool
  preference : Int
  cabin : Option Str
  block : Str
deriving DecidableEq

/-- First part of `s.split("_")`: the fleet label before the underscore. -/
def blockOf (s : Str) : Str := s.takeWhile (fun ch => ch != '_')

/-- Second part of `s.split("_")`: the seatrade name after the first
underscore. -/
def seatradeNameOf (s : Str) : Str := (s.dropWhile (fun ch => ch != '_')).drop 1

/-- `Seatrades.wrangle_assignments_to_longform`: melt the wide table into
one row per (instance column, camper index) pair, annotate `preference`
and `cabin` via the row functions, and split the instance name into the
`block` and `seatrade` columns. -/
def wrangle (inp : SeatradesInput) (A : Str → Str → Bool) : List LongRecord :=
  (seatradesFull inp).flatMap (fun s =>
    inp.campers.map (fun c =>
      { camper := c
        seatrade := seatradeNameOf s
        assignment := A c s
        preference := lookup_preference (inp.camper_prefs c) s (A c s)
        cabin := lookup_cabin inp.cabinOf c
        block := blockOf s }))

/-- A concrete camper name for witness instances. -/
def wCamper : Str := ['c', '1']

/-- Concrete seatrade name `S1`. -/
def wS1 : Str := ['S', '1']

/-- Concrete seatrade name `S2`. -/
def wS2 : Str := ['S', '2']

/-- Concrete seatrade name `S3`. -/
def wS3 : Str := ['S', '3']

/-- Concrete seatrade name `S4`. -/
def wS4 : Str := ['S', '4']

/-- Concrete cabin name `CabA`. -/
def wCabA : Str := ['C', 'a', 'b', 'A']

/-- Concrete cabin name `CabB`. -/
def wCabB : Str := ['C', 'a', 'b', 'B']

/-- Concrete camper name `Alice`. -/
def wAlice : Str := ['A', 'l', 'i', 'c', 'e']

/-- Concrete camper name `Al`, a substring of `Alice`. -/
def wAl : Str := ['A', 'l']

/-- A small concrete engine input: one camper, four seatrades, the camper
preferring them in order. -/
def wInp : SeatradesInput :=
  { campers := [wCamper]
    seatrades := [wS1, wS2, wS3, wS4]
    camper_prefs := fun _ => [wS1, wS2, wS3, wS4]
    campers_min := fun _ => 0
    campers_max := fun _ => 1
    cabinOf := [(wCamper, wCabA)] }

/-- A concrete solution for `wInp`: the camper takes `S1` in fleet 1a and
`S2` in fleet 2a. -/
def wA : Str → Str → Bool := fun c s =>
  decide (c = wCamper) &&
    (decide (s = mkInst fleet1a wS1) || decide (s = mkInst fleet2a wS2))

/-- The all-unassigned candidate solution. -/
def wAfalse : Str → Str → Bool := fun _ _ => false

/-- The all-on indicator family for the cap-constraint witness. -/
def wStrue : Str → Str → Bool := fun _ _ => true

/-- A concrete solved-variable table with a single entry. -/
def cxTbl : AssignTable := [(wCamper, mkInst fleet1a wS1, 0)]

/-- Input with one camper and two seatrades, for the record-count
counterexample. -/
def w7inp : SeatradesInput :=
  { campers := [wCamper]
    seatrades := [wS1, wS2]
    camper_prefs := fun _ => [wS1, wS2]
    campers_min := fun _ => 0
    campers_max := fun _ => 4
    cabinOf := [(wCamper, wCabA)] }

/-- Input whose camper names collide as substrings: `Al` (cabin `CabB`)
appears after `Alice` (cabin `CabA`), and `Al` is a substring of `Alice`. -/
def w8inp : SeatradesInput :=
  { campers := [wAlice, wAl]
    seatrades := [wS1]
    camper_prefs := fun _ => [wS1]
    campers_min := fun _ => 0
    campers_max := fun _ => 4
    cabinOf := [(wAlice, wCabA), (wAl, wCabB)] }

/-- The long-form row of `wrangle w8inp wAfalse` for camper `Al` and
instance `1a_S1`: its cabin resolves to `Alice`'s cabin. -/
def w8rec : LongRecord :=
  { camper := wAl
    seatrade := wS1
    assignment := false
    preference := 0
    cabin := some wCabA
    block := fleet1a }

/-- Input with the single camper `Al`, whose cabin lookup is clean. -/
def w8okInp : SeatradesInput :=
  { campers := [wAl]
    seatrades := [wS1]
    camper_prefs := fun _ => [wS1]
    campers_min := fun _ => 0
    campers_max := fun _ => 4
    cabinOf := [(wAl, wCabB)] }

/-- The long-form row of `wrangle w8okInp wAfalse` for `Al` and `1a_S1`. -/
def w8okRec : LongRecord :=
  { camper := wAl
    seatrade := wS1
    assignment := false
    preference := 0
    cabin := some wCabB
    block := fleet1a }

/-- The long-form row of `wrangle wInp wA` for camper `c1` and the
assigned instance `1a_S1`. -/
def w6rec : LongRecord :=
  { camper := wCamper
    seatrade := wS1
    assignment := true
    preference := 1
    cabin := some wCabA
    block := fleet1a }

/-- Fleet-prefix stripping inverts instance naming for fleet `1a`. -/
theorem stripInst_mkInst_1a (t : Str) : stripInst (mkInst fleet1a t) = t := rfl

/-- Fleet-prefix stripping inverts instance naming for fleet `1b`. -/
theorem stripInst_mkInst_1b (t : Str) : stripInst (mkInst fleet1b t) = t := rfl

/-- Fleet-prefix stripping inverts instance naming for fleet `2a`. -/
theorem stripInst_mkInst_2a (t : Str) : stripInst (mkInst fleet2a t) = t := rfl

/-- Fleet-prefix stripping inverts instance naming for fleet `2b`. -/
theorem stripInst_mkInst_2b (t : Str) : stripInst (mkInst fleet2b t) = t := rfl

/-- A `pulp.lpSum` of binary variables equals the count of those that are 1. -/
theorem boolIntSum_eq_countP {α : Type} (l : List α) (v : α → Bool) :
    boolIntSum l v = (l.countP v : Int) := by
  induction l with
  | nil => rfl
  | cons a l ih =>
    by_cases h : v a <;>
      simp only [boolIntSum, List.map_cons, List.sum_cons, List.countP_cons, h,
        if_true, if_false, ite_true, ite_false] at ih ⊢ <;>
      push_cast <;> omega

/-- If at most one element of a list satisfies `p` (counting multiplicity),
any two members satisfying `p` are equal. -/
theorem eq_of_countP_le_one {α : Type} {l : List α} {p : α → Bool}
    (h : l.countP p ≤ 1) {a b : α} (ha : a ∈ l) (hb : b ∈ l)
    (hpa : p a = true) (hpb : p b = true) : a = b := by
  by_contra hne
  obtain ⟨s, t, rfl⟩ := List.append_of_mem ha
  have hb' : b ∈ s ∨ b ∈ t := by
    rcases List.mem_append.1 hb with h' | h'
    · exact Or.inl h'
    · rcases List.mem_cons.1 h' with rfl | h'
      · exact absurd rfl hne
      · exact Or.inr h'
  have h2 : 0 < List.countP p s ∨ 0 < List.countP p t := by
    rcases hb' with h' | h'
    · exact Or.inl (List.countP_pos_iff.2 ⟨b, h', hpb⟩)
    · exact Or.inr (List.countP_pos_iff.2 ⟨b, h', hpb⟩)
  rw [List.countP_append, List.countP_cons, hpa] at h
  simp only [if_true, ite_true] at h
  omega

/-- Membership in the Block-1 instance list names an instance of one of the
fleets `1a`, `1b`. -/
theorem mem_block1_iff (inp : SeatradesInput) (s : Str) :
    s ∈ block1Insts inp ↔
      ∃ t ∈ inp.seatrades, s = mkInst fleet1a t ∨ s = mkInst fleet1b t := by
  simp only [block1Insts, seatrades1a, seatrades1b, List.mem_append, List.mem_map]
  constructor
  · rintro (⟨t, ht, rfl⟩ | ⟨t, ht, rfl⟩)
    · exact ⟨t, ht, Or.inl rfl⟩
    · exact ⟨t, ht, Or.inr rfl⟩
  · rintro ⟨t, ht, rfl | rfl⟩
    · exact Or.inl ⟨t, ht, rfl⟩
    · exact Or.inr ⟨t, ht, rfl⟩

/-- Membership in the Block-2 instance list names an instance of one of the
fleets `2a`, `2b`. -/
theorem mem_block2_iff (inp : SeatradesInput) (s : Str) :
    s ∈ block2Insts inp ↔
      ∃ t ∈ inp.seatrades, s = mkInst fleet2a t ∨ s = mkInst fleet2b t := by
  simp only [block2Insts, seatrades2a, seatrades2b, List.mem_append, List.mem_map]
  constructor
  · rintro (⟨t, ht, rfl⟩ | ⟨t, ht, rfl⟩)
    · exact ⟨t, ht, Or.inl rfl⟩
    · exact ⟨t, ht, Or.inr rfl⟩
  · rintro ⟨t, ht, rfl | rfl⟩
    · exact Or.inl ⟨t, ht, rfl⟩
    · exact Or.inr ⟨t, ht, rfl⟩

/-- Membership in `seatrades_full` names an instance of one of the four
fleets. -/
theorem mem_seatradesFull_iff (inp : SeatradesInput) (s : Str) :
    s ∈ seatradesFull inp ↔ ∃ f ∈ fleets, ∃ t ∈ inp.seatrades, s = mkInst f t := by
  simp only [seatradesFull, seatrades1a, seatrades1b, seatrades2a, seatrades2b,
    List.mem_append, List.mem_map]
  constructor
  · rintro (((⟨t, ht, rfl⟩ | ⟨t, ht, rfl⟩) | ⟨t, ht, rfl⟩) | ⟨t, ht, rfl⟩)
    · exact ⟨fleet1a, by simp [fleets], t, ht, rfl⟩
    · exact ⟨fleet1b, by simp [fleets], t, ht, rfl⟩
    · exact ⟨fleet2a, by simp [fleets], t, ht, rfl⟩
    · exact ⟨fleet2b, by simp [fleets], t, ht, rfl⟩
  · rintro ⟨f, hf, t, ht, rfl⟩
    simp only [fleets, List.mem_cons, List.not_mem_nil, or_false] at hf
    rcases hf with rfl | rfl | rfl | rfl
    · exact Or.inl (Or.inl (Or.inl ⟨t, ht, rfl⟩))
    · exact Or.inl (Or.inl (Or.inr ⟨t, ht, rfl⟩))
    · exact Or.inl (Or.inr ⟨t, ht, rfl⟩)
    · exact Or.inr ⟨t, ht, rfl⟩

/-- Block-1 instances are among `seatrades_full`. -/
theorem block1_subset_full (inp : SeatradesInput) {s : Str}
    (hs : s ∈ block1Insts inp) : s ∈ seatradesFull inp := by
  rcases (mem_block1_iff inp s).1 hs with ⟨t, ht, rfl | rfl⟩
  · exact (mem_seatradesFull_iff inp _).2 ⟨fleet1a, by simp [fleets], t, ht, rfl⟩
  · exact (mem_seatradesFull_iff inp _).2 ⟨fleet1b, by simp [fleets], t, ht, rfl⟩

/-- Block-2 instances are among `seatrades_full`. -/
theorem block2_subset_full (inp : SeatradesInput) {s : Str}
    (hs : s ∈ block2Insts inp) : s ∈ seatradesFull inp := by
  rcases (mem_block2_iff inp s).1 hs with ⟨t, ht, rfl | rfl⟩
  · exact (mem_seatradesFull_iff inp _).2 ⟨fleet2a, by simp [fleets], t, ht, rfl⟩
  · exact (mem_seatradesFull_iff inp _).2 ⟨fleet2b, by simp [fleets], t, ht, rfl⟩

/-- A four-entry binary sum with a true entry among the first two and a
true entry among the last two is at least 2. -/
theorem two_le_boolIntSum_four {b1 b2 b3 b4 : Bool}
    (h12 : b1 = true ∨ b2 = true) (h34 : b3 = true ∨ b4 = true) :
    2 ≤ boolIntSum [b1, b2, b3, b4] id := by
  cases b1 <;> cases b2 <;> cases b3 <;> cases b4 <;> simp_all [boolIntSum]

/-- Under Constraint 2, a camper's Block-1 and Block-2 assignments carry
distinct seatrade identities. -/
theorem assigned_distinct (inp : SeatradesInput) (A : Str → Str → Bool)
    (h2 : constraint2 inp A) {c : Str} (hc : c ∈ inp.campers)
    {s1 s2 : Str} (hs1 : s1 ∈ block1Insts inp) (hs2 : s2 ∈ block2Insts inp)
    (ha1 : A c s1 = true) (ha2 : A c s2 = true) :
    stripInst s1 ≠ stripInst s2 := by
  rcases (mem_block1_iff inp s1).1 hs1 with ⟨t1, ht1, h1⟩
  rcases (mem_block2_iff inp s2).1 hs2 with ⟨t2, ht2, hB⟩
  intro heq
  have e1 : stripInst s1 = t1 := by rcases h1 with rfl | rfl <;> rfl
  have e2 : stripInst s2 = t2 := by rcases hB with rfl | rfl <;> rfl
  rw [e1, e2] at heq
  subst heq
  have hle := h2 t1 ht1 c hc
  have hge : 2 ≤ boolIntSum
      [A c (mkInst fleet1a t1), A c (mkInst fleet1b t1),
       A c (mkInst fleet2a t1), A c (mkInst fleet2b t1)] id := by
    apply two_le_boolIntSum_four
    · rcases h1 with rfl | rfl
      · exact Or.inl ha1
      · exact Or.inr ha1
    · rcases hB with rfl | rfl
      · exact Or.inl ha2
      · exact Or.inr ha2
  have : (2 : Int) ≤ 1 := le_trans hge hle
  omega

/-- Claim C1: in every solution satisfying Constraints 1 and 2 of
`Seatrades.assign`, each camper has exactly one assigned Seatrade Instance
in Block 1 (fleets 1a/1b), exactly one in Block 2 (fleets 2a/2b), and the
seatrade identities of the two assignments are distinct. -/
theorem accepted_one_per_block_and_distinct (inp : SeatradesInput)
    (A : Str → Str → Bool)
    (h1 : constraint1 inp A) (h2 : constraint2 inp A)
    (c : Str) (hc : c ∈ inp.campers) :
    (block1Insts inp).countP (A c) = 1 ∧ (block2Insts inp).countP (A c) = 1 ∧
    ∀ s1 ∈ block1Insts inp, ∀ s2 ∈ block2Insts inp,
      A c s1 = true → A c s2 = true → stripInst s1 ≠ stripInst s2 := by
  have hb1 := h1 (block1Insts inp) (by simp) c hc
  have hb2 := h1 (block2Insts inp) (by simp) c hc
  rw [boolIntSum_eq_countP] at hb1 hb2
  refine ⟨by exact_mod_cast hb1, by exact_mod_cast hb2, ?_⟩
  intro s1 hs1 s2 hs2 ha1 ha2
  exact assigned_distinct inp A h2 hc hs1 hs2 ha1 ha2

/-- Witness instantiating Claim C1's theorem on `wInp` and `wA`. -/
theorem accepted_one_per_block_and_distinct_witness :
    (block1Insts wInp).countP (wA wCamper) = 1 ∧
    (block2Insts wInp).countP (wA wCamper) = 1 ∧
    ∀ s1 ∈ block1Insts wInp, ∀ s2 ∈ block2Insts wInp,
      wA wCamper s1 = true → wA wCamper s2 = true → stripInst s1 ≠ stripInst s2 :=
  accepted_one_per_block_and_distinct wInp wA
    (by unfold constraint1; decide) (by unfold constraint2; decide)
    wCamper (by decide)

/-- Claim C2: in every solution satisfying Constraint 3 of
`Seatrades.assign`, every Seatrade Instance (any fleet paired with any
seatrade) has its assigned-camper count within the seatrade's
`campers_min`/`campers_max` bounds. -/
theorem accepted_capacity_bounds (inp : SeatradesInput) (A : Str → Str → Bool)
    (h3 : constraint3 inp A)
    (f : Str) (hf : f ∈ fleets) (t : Str) (ht : t ∈ inp.seatrades) :
    inp.campers_min t ≤ (inp.campers.countP (fun c => A c (mkInst f t)) : Int) ∧
    (inp.campers.countP (fun c => A c (mkInst f t)) : Int) ≤ inp.campers_max t := by
  have hmem : mkInst f t ∈ seatradesFull inp :=
    (mem_seatradesFull_iff inp _).2 ⟨f, hf, t, ht, rfl⟩
  have h := h3 _ hmem
  rw [boolIntSum_eq_countP] at h
  have hstrip : stripInst (mkInst f t) = t := by
    simp only [fleets, List.mem_cons, List.not_mem_nil, or_false] at hf
    rcases hf with rfl | rfl | rfl | rfl <;> rfl
  rwa [hstrip] at h

/-- Witness instantiating Claim C2's theorem on `wInp` and `wA` at the
instance `1a_S1`. -/
theorem accepted_capacity_bounds_witness :
    wInp.campers_min wS1 ≤ (wInp.campers.countP (fun c => wA c (mkInst fleet1a wS1)) : Int) ∧
    (wInp.campers.countP (fun c => wA c (mkInst fleet1a wS1)) : Int) ≤ wInp.campers_max wS1 :=
  accepted_capacity_bounds wInp wA (by unfold constraint3; decide)
    fleet1a (by decide) wS1 (by decide)

/-- Every term of a camper's per-fleet preference-penalty list is
nonnegative. -/
theorem prefTerms_mem_nonneg (prefs : List Str) (v : Str → Bool) (fleet : Str) :
    ∀ x ∈ prefTerms prefs v fleet, 0 ≤ x := by
  intro x hx
  simp only [prefTerms, List.mem_map] at hx
  obtain ⟨s, _, rfl⟩ := hx
  by_cases h : v (mkInst fleet s) <;> simp [h]

/-- If the camper is assigned seatrade `t` in the given fleet, the fleet's
penalty sum is at least `t`'s rank index. -/
theorem le_prefTerms_sum (prefs : List Str) (v : Str → Bool) (fleet : Str)
    {t : Str} (ht : t ∈ prefs) (hv : v (mkInst fleet t) = true) :
    (prefs.indexOf t : Int) ≤ (prefTerms prefs v fleet).sum := by
  have hmem : ((if v (mkInst fleet t) then (1 : Int) else 0) * (prefs.indexOf t : Int)) ∈
      prefTerms prefs v fleet := by
    simp only [prefTerms, List.mem_map]
    exact ⟨t, ht, rfl⟩
  have hle := List.single_le_sum (prefTerms_mem_nonneg prefs v fleet) _ hmem
  rw [hv] at hle
  simpa using hle

/-- Under Constraint 4, any assigned instance's seatrade is in the
camper's preference list. -/
theorem assigned_mem_prefs (inp : SeatradesInput) (A : Str → Str → Bool)
    (h4 : constraint4 inp A) {c : Str} (hc : c ∈ inp.campers)
    {s : Str} (hs : s ∈ seatradesFull inp) (ha : A c s = true) :
    stripInst s ∈ inp.camper_prefs c := by
  by_contra hmem
  have h := h4 c hc
  rw [boolIntSum_eq_countP] at h
  have h0 : ((seatradesFull inp).filter
      (fun s => !(decide (stripInst s ∈ inp.camper_prefs c)))).countP (A c) = 0 := by
    exact_mod_cast h
  rw [List.countP_eq_zero] at h0
  have hsf : s ∈ (seatradesFull inp).filter
      (fun s => !(decide (stripInst s ∈ inp.camper_prefs c))) := by
    rw [List.mem_filter]
    exact ⟨hs, by simp [hmem]⟩
  exact (h0 s hsf) ha

/-- Distinct members of a list have distinct `indexOf` positions. -/
theorem eq_of_indexOf_eq {α : Type} [BEq α] [LawfulBEq α] {l : List α} {x y : α}
    (hx : x ∈ l) (hy : y ∈ l) (h : l.indexOf x = l.indexOf y) : x = y := by
  induction l with
  | nil => cases hx
  | cons a l ih =>
    rw [List.indexOf_cons, List.indexOf_cons] at h
    cases hax : (a == x) with
    | true =>
      cases hay : (a == y) with
      | true => exact (eq_of_beq hax).symm.trans (eq_of_beq hay)
      | false => rw [hax, hay] at h; simp at h
    | false =>
      cases hay : (a == y) with
      | true => rw [hax, hay] at h; simp at h
      | false =>
        rw [hax, hay] at h
        simp only [Bool.cond_false] at h
        have hx' : x ∈ l := by
          rcases List.mem_cons.1 hx with h' | hx'
          · subst h'; simp at hax
          · exact hx'
        have hy' : y ∈ l := by
          rcases List.mem_cons.1 hy with h' | hy'
          · subst h'; simp at hay
          · exact hy'
        exact ih hx' hy' (by omega)

/-- Claim C3: in every solution satisfying Constraints 2, 4 and 5 of
`Seatrades.assign` (the last bounding the combined 0-based rank indices by
the source's `5 - 1 = 4`, the "3rd plus 4th preference" threshold minus
one), a camper never holds their 3rd and 4th choices together: at least
one of the camper's two assignments has rank index at most 1, i.e. is
among the camper's top two preferences. -/
theorem guaranteed_top_two (inp : SeatradesInput) (A : Str → Str → Bool)
    (h2 : constraint2 inp A) (h4 : constraint4 inp A) (h5 : constraint5 inp A)
    (c : Str) (hc : c ∈ inp.campers)
    (s1 : Str) (hs1 : s1 ∈ block1Insts inp)
    (s2 : Str) (hs2 : s2 ∈ block2Insts inp)
    (ha1 : A c s1 = true) (ha2 : A c s2 = true) :
    (inp.camper_prefs c).indexOf (stripInst s1) ≤ 1 ∨
    (inp.camper_prefs c).indexOf (stripInst s2) ≤ 1 := by
  set prefs := inp.camper_prefs c with hprefs
  have hm1 : stripInst s1 ∈ prefs :=
    assigned_mem_prefs inp A h4 hc (block1_subset_full inp hs1) ha1
  have hm2 : stripInst s2 ∈ prefs :=
    assigned_mem_prefs inp A h4 hc (block2_subset_full inp hs2) ha2
  have hne : stripInst s1 ≠ stripInst s2 :=
    assigned_distinct inp A h2 hc hs1 hs2 ha1 ha2
  have hidx : prefs.indexOf (stripInst s1) ≠ prefs.indexOf (stripInst s2) := by
    intro h
    exact hne (eq_of_indexOf_eq hm1 hm2 h)
  rcases (mem_block1_iff inp s1).1 hs1 with ⟨t1, ht1, hf1⟩
  rcases (mem_block2_iff inp s2).1 hs2 with ⟨t2, ht2, hf2⟩
  have h5c := h5 c hc
  rw [List.sum_append, List.sum_append, List.sum_append] at h5c
  have hb1 : (prefs.indexOf (stripInst s1) : Int) ≤
      (prefTerms prefs (A c) fleet1a).sum + (prefTerms prefs (A c) fleet1b).sum := by
    rcases hf1 with rfl | rfl
    · rw [stripInst_mkInst_1a] at hm1 ⊢
      have h := le_prefTerms_sum prefs (A c) fleet1a hm1 ha1
      linarith [List.sum_nonneg (prefTerms_mem_nonneg prefs (A c) fleet1b)]
    · rw [stripInst_mkInst_1b] at hm1 ⊢
      have h := le_prefTerms_sum prefs (A c) fleet1b hm1 ha1
      linarith [List.sum_nonneg (prefTerms_mem_nonneg prefs (A c) fleet1a)]
  have hb2 : (prefs.indexOf (stripInst s2) : Int) ≤
      (prefTerms prefs (A c) fleet2a).sum + (prefTerms prefs (A c) fleet2b).sum := by
    rcases hf2 with rfl | rfl
    · rw [stripInst_mkInst_2a] at hm2 ⊢
      have h := le_prefTerms_sum prefs (A c) fleet2a hm2 ha2
      linarith [List.sum_nonneg (prefTerms_mem_nonneg prefs (A c) fleet2b)]
    · rw [stripInst_mkInst_2b] at hm2 ⊢
      have h := le_prefTerms_sum prefs (A c) fleet2b hm2 ha2
      linarith [List.sum_nonneg (prefTerms_mem_nonneg prefs (A c) fleet2a)]
  have hsum : (prefs.indexOf (stripInst s1) : Int) +
      (prefs.indexOf (stripInst s2) : Int) ≤ 4 := by linarith
  have hI : prefs.indexOf (stripInst s1) + prefs.indexOf (stripInst s2) ≤ 4 := by
    exact_mod_cast hsum
  omega

/-- Witness instantiating Claim C3's theorem on `wInp` and `wA` at the
camper's two assigned instances `1a_S1` and `2a_S2`. -/
theorem guaranteed_top_two_witness :
    (wInp.camper_prefs wCamper).indexOf (stripInst (mkInst fleet1a wS1)) ≤ 1 ∨
    (wInp.camper_prefs wCamper).indexOf (stripInst (mkInst fleet2a wS2)) ≤ 1 :=
  guaranteed_top_two wInp wA (by unfold constraint2; decide)
    (by unfold constraint4; decide) (by unfold constraint5; decide)
    wCamper (by decide) (mkInst fleet1a wS1) (by decide)
    (mkInst fleet2a wS2) (by decide) (by decide) (by decide)

/-- Claim C4, counterexample: a solver status of `-2` (pulp's Unbounded
code) passes through the remap unchanged, so a failed (unbounded) solve
does not surface status `-1` as the claim requires. -/
theorem status_unbounded_not_minus_one :
    (assignEpilogue initState (-2) []).status = -2 ∧
    (assignEpilogue initState (-2) []).status ≠ -1 := by decide

/-- Claim C4, amended: after `assign` returns, the stored status is the
solver status when that is nonzero and `-1` when it is 0, so status 1
holds exactly for solver code 1 (optimal or feasible-at-timeout), status
`-1` holds exactly for infeasible (`-1`) or solver error (`NotSolved`, 0),
unbounded surfaces as `-2` rather than `-1`, and 0 never occurs after a
solve. -/
theorem assign_status_mapping (st : SeatradesState) (tbl : AssignTable) (s : Int) :
    ((assignEpilogue st s tbl).status = 1 ↔ s = 1) ∧
    ((assignEpilogue st s tbl).status = -1 ↔ (s = -1 ∨ s = 0)) ∧
    ((assignEpilogue st s tbl).status = -2 ↔ s = -2) ∧
    (assignEpilogue st s tbl).status ≠ 0 := by
  unfold assignEpilogue updateStatus
  by_cases h : s = 0 <;> simp [h]

/-- Witness instantiating the amended status-mapping theorem at a
successful solve (solver status 1). -/
theorem assign_status_mapping_witness :
    ((assignEpilogue initState 1 []).status = 1 ↔ (1 : Int) = 1) ∧
    ((assignEpilogue initState 1 []).status = -1 ↔ ((1 : Int) = -1 ∨ (1 : Int) = 0)) ∧
    ((assignEpilogue initState 1 []).status = -2 ↔ (1 : Int) = -2) ∧
    (assignEpilogue initState 1 []).status ≠ 0 :=
  assign_status_mapping initState [] 1

/-- Claim C5, counterexample: after a solve reported Infeasible (status
`-1`), `self.assignments` is nonetheless populated with the variable
table, so Assignment data is exposed downstream. -/
theorem infeasible_keeps_assignments_cx :
    (assignEpilogue initState (-1) cxTbl).status = -1 ∧
    (assignEpilogue initState (-1) cxTbl).assignments = some cxTbl ∧
    (assignEpilogue initState (-1) cxTbl).assignments ≠ none := by decide

/-- Claim C5, amended: on an infeasible solve the engine surfaces status
`-1`, but `self.assignments` is still unconditionally overwritten with the
current variable values; downstream consumers receive that table rather
than being denied Assignment data. -/
theorem infeasible_status_with_assignments (st : SeatradesState) (tbl : AssignTable) :
    (assignEpilogue st (-1) tbl).status = -1 ∧
    (assignEpilogue st (-1) tbl).assignments = some tbl := by
  unfold assignEpilogue updateStatus
  exact ⟨by norm_num, rfl⟩

/-- Claim C10: `Seatrades.status` is 0 exactly in the not-yet-solved
state: construction initialises it to 0, and after any `assign` epilogue
the status is never 0 (a NotSolved solver code 0 is remapped to `-1`). -/
theorem status_zero_only_before_solve :
    initState.status = 0 ∧
    ∀ (st : SeatradesState) (s : Int) (tbl : AssignTable),
      (assignEpilogue st s tbl).status ≠ 0 := by
  refine ⟨rfl, ?_⟩
  intro st s tbl
  unfold assignEpilogue updateStatus
  by_cases h : s = 0 <;> simp [h]

/-- Witness instantiating the amended infeasibility theorem on the
concrete table `cxTbl`. -/
theorem infeasible_status_with_assignments_witness :
    (assignEpilogue initState (-1) cxTbl).status = -1 ∧
    (assignEpilogue initState (-1) cxTbl).assignments = some cxTbl :=
  infeasible_status_with_assignments initState cxTbl

/-- Witness instantiating Claim C10's theorem: the fresh state has status
0, and an epilogue that saw solver status 0 (NotSolved) leaves a nonzero
status. -/
theorem status_zero_only_before_solve_witness :
    initState.status = 0 ∧ (assignEpilogue initState 0 []).status ≠ 0 :=
  ⟨status_zero_only_before_solve.1, status_zero_only_before_solve.2 initState 0 []⟩

/-- A count of elements satisfying `p` is bounded by any 0/1 indicator sum
whose indicator dominates `p`. -/
theorem countP_le_indicator_sum {α : Type} (l : List α) (p q : α → Bool)
    (h : ∀ x ∈ l, p x = true → q x = true) :
    (l.countP p : Int) ≤ boolIntSum l q := by
  induction l with
  | nil => simp [boolIntSum]
  | cons a l ih =>
    have ih' := ih (fun x hx => h x (List.mem_cons_of_mem a hx))
    rw [List.countP_cons]
    simp only [boolIntSum, List.map_cons, List.sum_cons] at ih' ⊢
    by_cases hp : p a = true
    · rw [h a (List.mem_cons_self a l) hp, hp]
      simp only [if_true, ite_true]
      push_cast
      linarith
    · simp only [hp, if_false, ite_false]
      have hq : (0 : Int) ≤ if q a then 1 else 0 := by
        by_cases hqa : q a <;> simp [hqa]
      push_cast
      linarith

/-- Claim C9, counterexample: configuring `max_seatrades_per_fleet = 0`
(an int ≥ 0) adds no per-fleet cap constraints at all, because the
Python gate `if max_seatrades_per_fleet:` treats 0 as falsy. -/
theorem cap_zero_no_constraints_cx :
    capConstraints (some 0) = [] ∧
    (capConstraints (some 0)).length ≠ fleets.length := by decide

/-- Claim C9, amended: when `max_seatrades_per_fleet` is configured with a
nonzero value `k`, the model gains exactly one cap constraint per fleet,
and in any solution satisfying those constraints together with the
seatrade-indicator dominance constraints, the number of distinct seatrades
assigned within each fleet is at most `k`; when the parameter is absent
(and likewise when it is 0) no such constraint is added. -/
theorem cap_constraints_spec (inp : SeatradesInput) (A S : Str → Str → Bool)
    (k : Int) (hk : k ≠ 0)
    (hdom : ∀ f ∈ fleets, ∀ t ∈ inp.seatrades, ∀ c ∈ inp.campers,
      A c (mkInst f t) = true → S f t = true)
    (hsat : ∀ cst ∈ capConstraints (some k),
      boolIntSum inp.seatrades (S cst.1) ≤ cst.2) :
    capConstraints (some k) = fleets.map (fun f => (f, k)) ∧
    capConstraints none = [] ∧
    ∀ f ∈ fleets,
      (inp.seatrades.countP
        (fun t => inp.campers.any (fun c => A c (mkInst f t))) : Int) ≤ k := by
  have heq : capConstraints (some k) = fleets.map (fun f => (f, k)) := by
    simp [capConstraints, hk]
  refine ⟨heq, rfl, ?_⟩
  intro f hf
  have hcst : (f, k) ∈ capConstraints (some k) := by
    rw [heq]
    exact List.mem_map.2 ⟨f, hf, rfl⟩
  have hsum := hsat _ hcst
  refine le_trans (countP_le_indicator_sum inp.seatrades _ (S f) ?_) hsum
  intro t ht hany
  obtain ⟨c, hc, hAc⟩ := List.any_eq_true.1 hany
  exact hdom f hf t ht c hc hAc

/-- Witness instantiating Claim C9's amended theorem with cap 2 on
`w7inp`, the all-false assignment and the all-on indicators. -/
theorem cap_constraints_spec_witness :
    capConstraints (some 2) = fleets.map (fun f => (f, 2)) ∧
    capConstraints none = [] ∧
    ∀ f ∈ fleets,
      (w7inp.seatrades.countP
        (fun t => w7inp.campers.any (fun c => wAfalse c (mkInst f t))) : Int) ≤ 2 :=
  cap_constraints_spec w7inp wAfalse wStrue 2 (by decide) (by decide)
    (by unfold capConstraints boolIntSum; decide)

/-- Splitting keeps the fleet label for fleet `1a`. -/
theorem blockOf_mkInst_1a (t : Str) : blockOf (mkInst fleet1a t) = fleet1a := rfl

/-- Splitting keeps the fleet label for fleet `1b`. -/
theorem blockOf_mkInst_1b (t : Str) : blockOf (mkInst fleet1b t) = fleet1b := rfl

/-- Splitting keeps the fleet label for fleet `2a`. -/
theorem blockOf_mkInst_2a (t : Str) : blockOf (mkInst fleet2a t) = fleet2a := rfl

/-- Splitting keeps the fleet label for fleet `2b`. -/
theorem blockOf_mkInst_2b (t : Str) : blockOf (mkInst fleet2b t) = fleet2b := rfl

/-- Splitting recovers the seatrade name for fleet `1a`. -/
theorem seatradeNameOf_mkInst_1a (t : Str) : seatradeNameOf (mkInst fleet1a t) = t := rfl

/-- Splitting recovers the seatrade name for fleet `1b`. -/
theorem seatradeNameOf_mkInst_1b (t : Str) : seatradeNameOf (mkInst fleet1b t) = t := rfl

/-- Splitting recovers the seatrade name for fleet `2a`. -/
theorem seatradeNameOf_mkInst_2a (t : Str) : seatradeNameOf (mkInst fleet2a t) = t := rfl

/-- Splitting recovers the seatrade name for fleet `2b`. -/
theorem seatradeNameOf_mkInst_2b (t : Str) : seatradeNameOf (mkInst fleet2b t) = t := rfl

/-- `indexOf` of a member points at its first occurrence: the lookup at
that position succeeds and no earlier position holds the element. -/
theorem indexOf_getElem_take {α : Type} [BEq α] [LawfulBEq α] {l : List α} {a : α}
    (h : a ∈ l) :
    l[l.indexOf a]? = some a ∧ a ∉ l.take (l.indexOf a) := by
  induction l with
  | nil => cases h
  | cons b l ih =>
    rw [List.indexOf_cons]
    cases hba : (b == a) with
    | true =>
      have hb : b = a := eq_of_beq hba
      subst hb
      simp
    | false =>
      simp only [Bool.cond_false]
      have ha : a ∈ l := by
        rcases List.mem_cons.1 h with h' | h'
        · subst h'; simp at hba
        · exact h'
      obtain ⟨h1, h2⟩ := ih ha
      refine ⟨by simpa using h1, ?_⟩
      rw [List.take_succ_cons]
      intro hmem
      rcases List.mem_cons.1 hmem with h' | h'
      · subst h'; simp at hba
      · exact h2 h'

/-- The three branches of `lookup_preference`, with the assigned in-list
branch characterised as the 1-based first-occurrence position. -/
theorem lookup_preference_cases (prefs : List Str) (s : Str) (a : Bool) :
    (a = true → stripInst s ∈ prefs →
       lookup_preference prefs s a = (prefs.indexOf (stripInst s) : Int) + 1 ∧
       prefs[prefs.indexOf (stripInst s)]? = some (stripInst s) ∧
       stripInst s ∉ prefs.take (prefs.indexOf (stripInst s))) ∧
    (a = true → stripInst s ∉ prefs → lookup_preference prefs s a = 999) ∧
    (a = false → lookup_preference prefs s a = 0) := by
  refine ⟨?_, ?_, ?_⟩
  · intro ha hmem
    subst ha
    obtain ⟨h1, h2⟩ := indexOf_getElem_take hmem
    exact ⟨by simp [lookup_preference, hmem], h1, h2⟩
  · intro ha hmem
    subst ha
    simp [lookup_preference, hmem]
  · intro ha
    subst ha
    rfl

/-- Membership in the long-form table is exactly the records generated
from an instance column and a camper row. -/
theorem mem_wrangle_iff (inp : SeatradesInput) (A : Str → Str → Bool)
    (r : LongRecord) :
    r ∈ wrangle inp A ↔ ∃ s ∈ seatradesFull inp, ∃ c ∈ inp.campers,
      r = { camper := c
            seatrade := seatradeNameOf s
            assignment := A c s
            preference := lookup_preference (inp.camper_prefs c) s (A c s)
            cabin := lookup_cabin inp.cabinOf c
            block := blockOf s } := by
  simp only [wrangle, List.mem_flatMap, List.mem_map]
  constructor
  · rintro ⟨s, hs, c, hc, rfl⟩
    exact ⟨s, hs, c, hc, rfl⟩
  · rintro ⟨s, hs, c, hc, rfl⟩
    exact ⟨s, hs, c, hc, rfl⟩

/-- Claim C6: for every row of the long-form table, `preference` is the
1-based first-occurrence position of the row's seatrade in the camper's
preference list when the row is assigned and the seatrade occurs there;
the sentinel 999 when assigned but absent; and 0 when unassigned. -/
theorem record_preference_rank (inp : SeatradesInput) (A : Str → Str → Bool)
    (r : LongRecord) (hr : r ∈ wrangle inp A) :
    (r.assignment = true → r.seatrade ∈ inp.camper_prefs r.camper →
       r.preference = ((inp.camper_prefs r.camper).indexOf r.seatrade : Int) + 1 ∧
       (inp.camper_prefs r.camper)[(inp.camper_prefs r.camper).indexOf r.seatrade]? =
         some r.seatrade ∧
       r.seatrade ∉ (inp.camper_prefs r.camper).take
         ((inp.camper_prefs r.camper).indexOf r.seatrade)) ∧
    (r.assignment = true → r.seatrade ∉ inp.camper_prefs r.camper →
       r.preference = 999) ∧
    (r.assignment = false → r.preference = 0) := by
  obtain ⟨s, hs, c, hc, rfl⟩ := (mem_wrangle_iff inp A r).1 hr
  obtain ⟨f, hf, t, ht, rfl⟩ := (mem_seatradesFull_iff inp s).1 hs
  simp only [fleets, List.mem_cons, List.not_mem_nil, or_false] at hf
  rcases hf with rfl | rfl | rfl | rfl
  · exact lookup_preference_cases (inp.camper_prefs c) (mkInst fleet1a t)
      (A c (mkInst fleet1a t))
  · exact lookup_preference_cases (inp.camper_prefs c) (mkInst fleet1b t)
      (A c (mkInst fleet1b t))
  · exact lookup_preference_cases (inp.camper_prefs c) (mkInst fleet2a t)
      (A c (mkInst fleet2a t))
  · exact lookup_preference_cases (inp.camper_prefs c) (mkInst fleet2b t)
      (A c (mkInst fleet2b t))

/-- Witness instantiating Claim C6's theorem at the assigned row `w6rec`
of `wrangle wInp wA`. -/
theorem record_preference_rank_witness :
    w6rec.preference =
      ((wInp.camper_prefs w6rec.camper).indexOf w6rec.seatrade : Int) + 1 ∧
    (wInp.camper_prefs w6rec.camper)[(wInp.camper_prefs w6rec.camper).indexOf
      w6rec.seatrade]? = some w6rec.seatrade ∧
    w6rec.seatrade ∉ (wInp.camper_prefs w6rec.camper).take
      ((wInp.camper_prefs w6rec.camper).indexOf w6rec.seatrade) :=
  (record_preference_rank wInp wA w6rec (by decide)).1 (by decide) (by decide)

/-- The number of rows produced by the melt is columns times campers. -/
theorem length_wrangle (inp : SeatradesInput) (A : Str → Str → Bool) :
    (wrangle inp A).length = (seatradesFull inp).length * inp.campers.length := by
  unfold wrangle
  induction seatradesFull inp with
  | nil => simp
  | cons s ss ih =>
    simp only [List.flatMap_cons, List.length_append, List.length_map, ih,
      List.length_cons]
    ring

/-- Claim C7, counterexample: with one camper and two seatrades the
long-form table has 8 rows — one per (camper, Seatrade Instance) — not
the 2 rows (one per (camper, Block)) the claim requires. -/
theorem wrangle_not_per_block_cx :
    (wrangle w7inp wAfalse).length = 8 ∧
    w7inp.campers.length * 2 = 2 ∧ (8 : Nat) ≠ 2 := by decide

/-- Claim C7, amended: the Result Interpreter emits one record per
(camper, Seatrade Instance) — `4·|seatrades|` rows per camper, each
carrying the camper, its cabin lookup, the fleet label in the column named
`block`, the seatrade name, and the assignment flag (there is no separate
fleet field); every (camper, instance) pair is covered. -/
theorem wrangle_record_per_instance (inp : SeatradesInput) (A : Str → Str → Bool) :
    (wrangle inp A).length = (seatradesFull inp).length * inp.campers.length ∧
    (seatradesFull inp).length = 4 * inp.seatrades.length ∧
    (∀ r ∈ wrangle inp A,
      r.camper ∈ inp.campers ∧ r.block ∈ fleets ∧ r.seatrade ∈ inp.seatrades ∧
      r.assignment = A r.camper (mkInst r.block r.seatrade) ∧
      r.cabin = lookup_cabin inp.cabinOf r.camper) ∧
    (∀ c ∈ inp.campers, ∀ s ∈ seatradesFull inp,
      ∃ r ∈ wrangle inp A, r.camper = c ∧ mkInst r.block r.seatrade = s ∧
        r.assignment = A c s) := by
  refine ⟨length_wrangle inp A, ?_, ?_, ?_⟩
  · simp only [seatradesFull, seatrades1a, seatrades1b, seatrades2a, seatrades2b,
      List.length_append, List.length_map]
    ring
  · intro r hr
    obtain ⟨s, hs, c, hc, rfl⟩ := (mem_wrangle_iff inp A r).1 hr
    obtain ⟨f, hf0, t, ht, rfl⟩ := (mem_seatradesFull_iff inp s).1 hs
    have hf := hf0
    simp only [fleets, List.mem_cons, List.not_mem_nil, or_false] at hf
    rcases hf with rfl | rfl | rfl | rfl <;> exact ⟨hc, hf0, ht, rfl, rfl⟩
  · intro c hc s hs
    refine ⟨{ camper := c
              seatrade := seatradeNameOf s
              assignment := A c s
              preference := lookup_preference (inp.camper_prefs c) s (A c s)
              cabin := lookup_cabin inp.cabinOf c
              block := blockOf s },
            (mem_wrangle_iff inp A _).2 ⟨s, hs, c, hc, rfl⟩, rfl, ?_, rfl⟩
    obtain ⟨f, hf, t, ht, rfl⟩ := (mem_seatradesFull_iff inp s).1 hs
    simp only [fleets, List.mem_cons, List.not_mem_nil, or_false] at hf
    rcases hf with rfl | rfl | rfl | rfl <;> rfl

/-- Witness instantiating Claim C7's amended theorem on `w7inp`. -/
theorem wrangle_record_per_instance_witness :
    (wrangle w7inp wAfalse).length =
      (seatradesFull w7inp).length * w7inp.campers.length ∧
    (seatradesFull w7inp).length = 4 * w7inp.seatrades.length ∧
    (∀ r ∈ wrangle w7inp wAfalse,
      r.camper ∈ w7inp.campers ∧ r.block ∈ fleets ∧ r.seatrade ∈ w7inp.seatrades ∧
      r.assignment = wAfalse r.camper (mkInst r.block r.seatrade) ∧
      r.cabin = lookup_cabin w7inp.cabinOf r.camper) ∧
    (∀ c ∈ w7inp.campers, ∀ s ∈ seatradesFull w7inp,
      ∃ r ∈ wrangle w7inp wAfalse, r.camper = c ∧ mkInst r.block r.seatrade = s ∧
        r.assignment = wAfalse c s) :=
  wrangle_record_per_instance w7inp wAfalse

/-- `lookup_cabin` returns the camper's own cabin whenever the camper's
row is in the series and no other entry's label contains the camper's
name as a substring. -/
theorem lookup_cabin_first_self {tbl : List (Str × Str)} {c cab : Str}
    (hmem : (c, cab) ∈ tbl)
    (huniq : ∀ e ∈ tbl, c <:+: e.1 → e = (c, cab)) :
    lookup_cabin tbl c = some cab := by
  induction tbl with
  | nil => cases hmem
  | cons e rest ih =>
    obtain ⟨n, cb⟩ := e
    by_cases hin : c <:+: n
    · have heq := huniq (n, cb) (List.mem_cons_self _ _) hin
      injection heq with h1 h2
      subst h1
      subst h2
      simp [lookup_cabin, hin]
    · have hmem' : (c, cab) ∈ rest := by
        rcases List.mem_cons.1 hmem with h' | h'
        · injection h' with h1 h2
          subst h1
          exact absurd List.infix_rfl hin
        · exact h'
      have huniq' : ∀ e ∈ rest, c <:+: e.1 → e = (c, cab) :=
        fun e he hi => huniq e (List.mem_cons_of_mem _ he) hi
      simp [lookup_cabin, hin, ih hmem' huniq']

/-- Claim C8, counterexample: with campers `Alice` (cabin `CabA`) and `Al`
(cabin `CabB`) — each belonging to exactly one cabin — the long-form row
for `Al` resolves its cabin to `CabA`, because the lookup tests substring
containment and `Al` occurs inside `Alice`. -/
theorem record_cabin_cx :
    w8rec ∈ wrangle w8inp wAfalse ∧
    (w8rec.camper, wCabB) ∈ w8inp.cabinOf ∧
    (w8inp.cabinOf.filter (fun e => decide (e.1 = w8rec.camper))).length = 1 ∧
    w8rec.cabin = some wCabA ∧ wCabA ≠ wCabB := by decide

/-- Claim C8, amended: the cabin column holds the cabin of the first
series entry whose camper label contains the row's camper as a substring;
it equals the camper's own cabin whenever no other entry's label contains
that camper's name (substring-free identifiers), but may name another
camper's cabin when identifiers collide as substrings. -/
theorem record_cabin_of_camper (inp : SeatradesInput) (A : Str → Str → Bool)
    (r : LongRecord) (hr : r ∈ wrangle inp A) (cab : Str)
    (hmem : (r.camper, cab) ∈ inp.cabinOf)
    (huniq : ∀ e ∈ inp.cabinOf, r.camper <:+: e.1 → e = (r.camper, cab)) :
    r.cabin = some cab := by
  obtain ⟨s, hs, c, hc, rfl⟩ := (mem_wrangle_iff inp A r).1 hr
  exact lookup_cabin_first_self hmem huniq

/-- Witness instantiating Claim C8's amended theorem on the substring-free
input `w8okInp`. -/
theorem record_cabin_of_camper_witness : w8okRec.cabin = some wCabB :=
  record_cabin_of_camper w8okInp wAfalse w8okRec (by decide) wCabB
    (by decide) (by decide)

end SeatradesPy
